import Mathlib

/-!
Shallow embedding of src/ram/comprehensive_ram_test.py.

The mutable bytearray test blocks of the Python source are modelled as total
functions from byte offsets to byte values: a faithful byte store in which
every read returns the last value written.  Little-endian multi-byte slice
reads and writes (block[off:off+n] = v.to_bytes(n, 'little') and
int.from_bytes(block[off:off+n], 'little')) are modelled by writeBytes and
readBytes.  All reachable accesses in the source are in bounds (block sizes
are memory_mb * 2^20 bytes and every offset written stays at least 8 bytes
below the end), so the resizing behaviour of out-of-range Python slice
assignment never triggers and is not modelled.

Wall-clock deadlines and the random number generator cannot live inside a
pure embedding; following the usual approach, the time-boxed loops of the
bandwidth test take explicit iteration counts (the number of loop bodies that
ran before the deadline fired) and the random-access loop takes the list of
(offset, value) pairs that random.randint produced, constrained exactly by
the bounds randint was called with.  The sysfs EDAC tree read by ECCMonitor
is modelled as a list of controllers whose counter files are each missing,
present but unreadable (reading raises), or readable with a value.
-/

namespace RamTest

/-- Byte store modelling a Python bytearray: byte offset to byte value. -/
abbrev Store := Nat → Nat

/-- Freshly allocated bytearray(n): all bytes zero. -/
def zeroStore : Store := fun _ => 0

/-- Little-endian slice write block[off:off+len] = v.to_bytes(len, 'little'):
byte off+k receives the k-th base-256 digit of v. -/
def writeBytes (s : Store) (off len v : Nat) : Store :=
  fun a => if off ≤ a ∧ a < off + len then v / 256 ^ (a - off) % 256 else s a

/-- Slice assignment of a constant byte string, block[off:off+len] = bytes([b]*len). -/
def writeFill (s : Store) (off len b : Nat) : Store :=
  fun a => if off ≤ a ∧ a < off + len then b else s a

/-- Little-endian read int.from_bytes(block[off:off+len], 'little'). -/
def readBytes (s : Store) (off : Nat) : Nat → Nat
  | 0 => 0
  | n + 1 => s off + 256 * readBytes s (off + 1) n

/-- Fuel-driven helper for the binary bit length; the fuel only bounds the
recursion depth and any fuel at least the argument gives the true value. -/
def bitLenAux : Nat → Nat → Nat
  | 0, _ => 0
  | fuel + 1, n => if n = 0 then 0 else bitLenAux fuel (n / 2) + 1

/-- Model of Python int.bit_length on a natural number. -/
def bitLen (n : Nat) : Nat := bitLenAux n n

/-- Model of Python int.bit_length: for a negative int Python takes the bit
length of the absolute value. -/
def pyBitLength (n : Int) : Nat := bitLen n.natAbs

/-- Byte offsets visited by Python range(0, stop, 8): the multiples of 8
strictly below stop. -/
def ascOffsets (stop : Nat) : List Nat :=
  (List.range ((stop + 7) / 8)).map (fun k => 8 * k)

/-- Byte offsets visited by Python range(stop - 8, -1, -8), descending from
stop - 8 in steps of 8 while nonnegative; empty when stop < 8. -/
def descOffsets (stop : Nat) : List Nat :=
  if stop < 8 then []
  else (List.range ((stop - 8) / 8 + 1)).map (fun k => stop - 8 - 8 * k)

/-- The all-ones 64-bit word 0xFFFFFFFFFFFFFFFF. -/
def allOnes64 : Nat := 0xFFFFFFFFFFFFFFFF

/-- Result of a memory-pattern test over one block: the final store and the
accumulated error and operation counters. -/
structure MarchResult where
  store : Store
  errors : Nat
  ops : Nat

/-- One march-style loop over the given byte offsets, mirroring the loop
bodies of JEDECPatternTest.mats_plus_test / march_c_minus_test (lines
391-487) and the walking-bit loops of test_walking_bits (lines 564-600):
with rd = some expected the body reads an 8-byte word and counts an error on
mismatch; with wr = some v it then writes v; each performed read and each
performed write adds one operation. -/
def marchPass (rd wr : Option Nat) : MarchResult → List Nat → MarchResult
  | st, [] => st
  | st, i :: l =>
    let e := match rd with
      | some expected => if readBytes st.store i 8 ≠ expected then st.errors + 1 else st.errors
      | none => st.errors
    let s := match wr with
      | some v => writeBytes st.store i 8 v
      | none => st.store
    let o := st.ops + (match rd with | some _ => 1 | none => 0) +
      (match wr with | some _ => 1 | none => 0)
    marchPass rd wr ⟨s, e, o⟩ l

/-- JEDECPatternTest.mats_plus_test (lines 391-430): write-0 ascending;
read-0 write-1 ascending; read-1 write-0 descending; read-0 ascending.
The Python function receives the block and uses block_size = len(block);
here the pair (bs, s) stands for that block. -/
def mats_plus_test (bs : Nat) (s : Store) : MarchResult :=
  let st := marchPass none (some 0) ⟨s, 0, 0⟩ (ascOffsets bs)
  let st := marchPass (some 0) (some allOnes64) st (ascOffsets bs)
  let st := marchPass (some allOnes64) (some 0) st (descOffsets bs)
  marchPass (some 0) none st (ascOffsets bs)

/-- JEDECPatternTest.march_c_minus_test (lines 432-487): write-0 ascending;
read-0 write-1 ascending; read-1 write-0 ascending; read-0 write-1
descending; read-1 write-0 descending; read-0 ascending. -/
def march_c_minus_test (bs : Nat) (s : Store) : MarchResult :=
  let st := marchPass none (some 0) ⟨s, 0, 0⟩ (ascOffsets bs)
  let st := marchPass (some 0) (some allOnes64) st (ascOffsets bs)
  let st := marchPass (some allOnes64) (some 0) st (ascOffsets bs)
  let st := marchPass (some 0) (some allOnes64) st (descOffsets bs)
  let st := marchPass (some allOnes64) (some 0) st (descOffsets bs)
  marchPass (some 0) none st (ascOffsets bs)

/-- JEDECPatternTest.test_jedec_patterns (lines 489-521): allocate one
zero-filled block of memory_mb MiB, run MATS+ then March C- on the same
block, and return the summed error and operation counts. -/
def test_jedec_patterns (mm : Nat) : Nat × Nat :=
  let bs := mm * 1048576
  let r1 := mats_plus_test bs zeroStore
  let r2 := march_c_minus_test bs r1.store
  (r1.errors + r2.errors, r1.ops + r2.ops)

/-- One walking-bit round of test_walking_bits for a fixed 64-bit pattern
(lines 566-581 and 585-600): a write pass over every 8-byte slot of the
first min(1 MiB, block) bytes, then a verify pass over the same slots. -/
def wbRound (limit : Nat) (st : MarchResult) (pat : Nat) : MarchResult :=
  let st := marchPass none (some pat) st (ascOffsets limit)
  marchPass (some pat) none st (ascOffsets limit)

/-- ComprehensiveRAMTest.test_walking_bits (lines 550-607): for each of the
64 bit positions run a round with the single-bit-set pattern 1 << bit, then
for each position a round with the complement pattern
~(1 << bit) & 0xFFFFFFFFFFFFFFFF = 2^64 - 1 - 2^bit. -/
def test_walking_bits (mm : Nat) : MarchResult :=
  let bs := mm * 1048576
  let limit := min 1048576 bs
  let st := ((List.range 64).map (fun bit => 2 ^ bit)).foldl (wbRound limit) ⟨zeroStore, 0, 0⟩
  ((List.range 64).map (fun bit => 2 ^ 64 - 1 - 2 ^ bit)).foldl (wbRound limit) st

/-- State of AddressLineTest.test_address_lines.  The errors and ops fields
are the two counters of the source; writes and reads are ghost
instrumentation (not present in the source) counting, respectively, every
buffer write performed and every read-back comparison performed, so that the
operation-counting claims can be stated against them. -/
structure ALState where
  store : Store
  errors : Nat
  ops : Nat
  writes : Nat
  reads : Nat

/-- Walking-ones stage of test_address_lines (lines 127-149): per bit
position the loop first counts one operation, then computes offset = 1 << b
and breaks out of the loop if offset >= block_size - 8 (over Python ints;
for naturals that is bs <= offset + 8); otherwise it writes the 4-byte
pattern (0xAA55AA55 + b) mod 2^32 at the offset, reads it back and counts an
error on mismatch. -/
def walkingOnes (bs : Nat) : ALState → List Nat → ALState
  | st, [] => st
  | st, b :: l =>
    let st := { st with ops := st.ops + 1 }
    let off := 2 ^ b
    if bs ≤ off + 8 then st
    else
      let pat := (0xAA55AA55 + b) % 2 ^ 32
      let s := writeBytes st.store off 4 pat
      let rp := readBytes s off 4
      walkingOnes bs
        { st with store := s,
                  errors := if rp ≠ pat then st.errors + 1 else st.errors,
                  writes := st.writes + 1, reads := st.reads + 1 } l

/-- Walking-zeros stage of test_address_lines (lines 151-172): like the
walking-ones stage but with offset = mask XOR (1 << b), pattern
(0x55AA55AA + b) mod 2^32, and a continue instead of a break on an
out-of-range offset. -/
def walkingZeros (bs mask : Nat) : ALState → List Nat → ALState
  | st, [] => st
  | st, b :: l =>
    let st := { st with ops := st.ops + 1 }
    let off := mask ^^^ 2 ^ b
    if bs ≤ off + 8 then walkingZeros bs mask st l
    else
      let pat := (0x55AA55AA + b) % 2 ^ 32
      let s := writeBytes st.store off 4 pat
      let rp := readBytes s off 4
      walkingZeros bs mask
        { st with store := s,
                  errors := if rp ≠ pat then st.errors + 1 else st.errors,
                  writes := st.writes + 1, reads := st.reads + 1 } l

/-- Adjacency write loop of test_address_lines (lines 176-179): at every
8-byte-aligned offset i of the first min(1 MiB, block_size - 8) bytes, count
one operation and write i itself as an 8-byte little-endian word. -/
def adjacencyWrite : ALState → List Nat → ALState
  | st, [] => st
  | st, i :: l =>
    adjacencyWrite
      { st with store := writeBytes st.store i 8 i,
                ops := st.ops + 1, writes := st.writes + 1 } l

/-- Adjacency verify loop of test_address_lines (lines 182-188): re-read
every such offset, count one operation, and count an error when the value
read differs from the offset. -/
def adjacencyVerify : ALState → List Nat → ALState
  | st, [] => st
  | st, i :: l =>
    let v := readBytes st.store i 8
    adjacencyVerify
      { st with errors := if v ≠ i then st.errors + 1 else st.errors,
                ops := st.ops + 1, reads := st.reads + 1 } l

/-- AddressLineTest.test_address_lines (lines 107-195): allocate a
zero-filled block of memory_mb MiB and run the walking-ones, walking-zeros
and adjacency stages in order.  max_bits is min(24, (block_size - 8)
.bit_length()) computed over Python ints, so for block_size < 8 the bit
length of the negative difference is that of its absolute value. -/
def test_address_lines (mm : Nat) : ALState :=
  let bs := mm * 1048576
  let maxBits := min 24 (pyBitLength ((bs : Int) - 8))
  let st := walkingOnes bs ⟨zeroStore, 0, 0, 0, 0⟩ (List.range maxBits)
  let mask := 2 ^ maxBits - 1
  let st := walkingZeros bs mask st (List.range maxBits)
  let stop := min 1048576 (bs - 8)
  let st := adjacencyWrite st (ascOffsets stop)
  adjacencyVerify st (ascOffsets stop)

/-- State of MemoryBandwidthTest.test_bandwidth.  The accessed field is
ghost instrumentation (not in the source) recording, in order, the byte
offsets chosen by the random-access phase, so that claims about those
offsets can be stated. -/
structure BWState where
  store : Store
  errors : Nat
  ops : Nat
  bytesTransferred : Nat
  accessed : List Nat

/-- Sequential-write phase of test_bandwidth (lines 306-319): the deadline
loop is modelled by fuel, the number of inner loop bodies that executed
before the deadline fired.  Each body writes the running write counter wc as
an 8-byte little-endian word at the next slot (the for loop restarts from
offset 0 each time it finishes, so the j-th body overall touches offset
8 * (j mod slots)) and counts one operation and 8 bytes. -/
def bwWritePhase (slots : Nat) : BWState → Nat → Nat → BWState
  | st, _, 0 => st
  | st, wc, fuel + 1 =>
    let i := 8 * (wc % slots)
    bwWritePhase slots
      { st with store := writeBytes st.store i 8 wc,
                ops := st.ops + 1, bytesTransferred := st.bytesTransferred + 8 }
      (wc + 1) fuel

/-- Sequential-read phase of test_bandwidth (lines 324-341), modelled like
the write phase: the j-th body reads the word at offset 8 * (j mod slots),
counts one operation and 8 bytes, and on every 1000th read compares the
value against the running read counter, counting an error on mismatch. -/
def bwReadPhase (slots : Nat) : BWState → Nat → Nat → BWState
  | st, _, 0 => st
  | st, rc, fuel + 1 =>
    let i := 8 * (rc % slots)
    let val := readBytes st.store i 8
    bwReadPhase slots
      { st with ops := st.ops + 1, bytesTransferred := st.bytesTransferred + 8,
                errors := if rc % 1000 = 0 ∧ val ≠ rc then st.errors + 1 else st.errors }
      (rc + 1) fuel

/-- Random-access phase of test_bandwidth (lines 348-368): rng is the list
of (offset, value) pairs produced by random.randint(0, block_size - 8) and
random.randint(0, 0xFFFFFFFFFFFFFFFF) for the bodies that ran before the
deadline (the batching in groups of 10000 only affects when the deadline is
polled, hence only the length of that list).  Each body writes value at
offset as an 8-byte little-endian word, immediately reads it back, counts an
error on mismatch, and counts two operations and 16 bytes. -/
def bwRandomPhase : BWState → List (Nat × Nat) → BWState
  | st, [] => st
  | st, (off, v) :: l =>
    let s := writeBytes st.store off 8 v
    let rv := readBytes s off 8
    bwRandomPhase
      { store := s,
        errors := if rv ≠ v then st.errors + 1 else st.errors,
        ops := st.ops + 2,
        bytesTransferred := st.bytesTransferred + 16,
        accessed := st.accessed ++ [off] } l

/-- MemoryBandwidthTest.test_bandwidth (lines 285-385): allocate a
zero-filled block of memory_mb MiB and run the three phases; k1 and k2 are
the body counts of the two time-boxed sequential phases and rng drives the
random-access phase. -/
def test_bandwidth (mm k1 k2 : Nat) (rng : List (Nat × Nat)) : BWState :=
  let bs := mm * 1048576
  let slots := (bs + 7) / 8
  let st := bwWritePhase slots ⟨zeroStore, 0, 0, 0, []⟩ 0 k1
  let st := bwReadPhase slots st 0 k2
  bwRandomPhase st rng

/-- Hammer loop of RowHammerTest.test_row_hammer (lines 245-255): iterations
times, count two operations and write the single byte 0xFF at both aggressor
offsets; the forced read-backs every 1000th iteration have no effect on the
store and no counter is touched for them. -/
def hammerLoop (a1 a2 : Nat) : Store → Nat → Nat → Store × Nat
  | s, o, 0 => (s, o)
  | s, o, fuel + 1 =>
    hammerLoop a1 a2 (writeBytes (writeBytes s a1 1 0xFF) a2 1 0xFF) (o + 2) fuel

/-- Victim-row scan of test_row_hammer (lines 258-271): for every byte
offset of the victim row count one operation and count an error when the
byte is no longer 0xAA. -/
def victimScan (s : Store) : Nat → Nat → List Nat → Nat × Nat
  | e, o, [] => (e, o)
  | e, o, a :: l =>
    victimScan s (if s a ≠ 0xAA then e + 1 else e) (o + 1) l

/-- One row-spacing round of test_row_hammer (lines 223-271): skip the
spacing when 3 * r >= block_size; otherwise fill the two victim rows at r
and 2r with 0xAA, then (unless 3r + 8 >= block_size, in which case the round
stops after the fills) hammer the aggressor offsets 0 and 3r and scan both
victim rows. -/
def hammerRound (bs iters : Nat) (st : Store × Nat × Nat) (r : Nat) : Store × Nat × Nat :=
  if bs ≤ 3 * r then st
  else
    let s := writeFill st.1 r r 0xAA
    let s := writeFill s (2 * r) r 0xAA
    if bs ≤ 3 * r + 8 then (s, st.2.1, st.2.2)
    else
      let (s, o) := hammerLoop 0 (3 * r) s st.2.2 iters
      let (e, o) := victimScan s st.2.1 o (List.range' r r)
      let (e, o) := victimScan s e o (List.range' (2 * r) r)
      (s, e, o)

/-- RowHammerTest.test_row_hammer (lines 201-279): allocate a zero-filled
block of memory_mb MiB and run one round for each row spacing in
[8192, 16384, 32768]; the result is (final store, errors, operations). -/
def test_row_hammer (mm iters : Nat) : Store × Nat × Nat :=
  let bs := mm * 1048576
  [8192, 16384, 32768].foldl (hammerRound bs iters) (zeroStore, 0, 0)

/-- State of one counter file of a memory controller under
/sys/devices/system/edac/mc/mc*/: the file may be absent, present but
failing on open or read, or readable with a counter value. -/
inductive FileState where
  | missing : FileState
  | unreadable : FileState
  | readable : Nat → FileState
deriving DecidableEq

/-- One discovered memory controller: its identifier and the states of its
ce_count and ue_count files. -/
structure Controller where
  name : Nat
  ceFile : FileState
  ueFile : FileState
deriving DecidableEq

/-- Snapshot returned by ECCMonitor.read_ecc_counters: summed correctable
and uncorrectable counts plus the per-controller details list of
(controller, ce, ue) entries. -/
structure Counters where
  ce : Nat
  ue : Nat
  details : List (Nat × Nat × Nat)
deriving DecidableEq

/-- Loop body of ECCMonitor.read_ecc_counters (lines 55-78), with the two
Python locals ce and ue threaded explicitly: they persist across iterations,
so a controller whose file is skipped as missing lists the previous
controller's stale value (0 when never set, via the 'in locals()' check).
Opening an unreadable file raises; the exception is caught by the handler at
line 79, which abandons the loop and returns the counters accumulated so
far, exactly as each early return here does. -/
def readLoop : Counters → Option Nat → Option Nat → List Controller → Counters
  | acc, _, _, [] => acc
  | acc, ceL, ueL, c :: l =>
    match c.ceFile with
    | FileState.unreadable => acc
    | ceF =>
      let acc1 := match ceF with
        | FileState.readable v => { acc with ce := acc.ce + v }
        | _ => acc
      let ceL1 := match ceF with
        | FileState.readable v => some v
        | _ => ceL
      match c.ueFile with
      | FileState.unreadable => acc1
      | ueF =>
        let acc2 := match ueF with
          | FileState.readable v => { acc1 with ue := acc1.ue + v }
          | _ => acc1
        let ueL2 := match ueF with
          | FileState.readable v => some v
          | _ => ueL
        readLoop
          { acc2 with details := acc2.details ++ [(c.name, ceL1.getD 0, ueL2.getD 0)] }
          ceL1 ueL2 l

/-- ECCMonitor.read_ecc_counters (lines 46-82): zero-filled snapshot when
monitoring is unsupported, otherwise the loop over the discovered
controllers with the outer exception handler folded in (see readLoop). -/
def read_ecc_counters (supported : Bool) (plat : List Controller) : Counters :=
  if supported then readLoop ⟨0, 0, []⟩ none none plat else ⟨0, 0, []⟩

/-- Delta returned by ECCMonitor.get_new_errors. -/
structure EccDelta where
  correctable : Int
  uncorrectable : Int
  details : List (Nat × Nat × Nat)
deriving DecidableEq

/-- ECCMonitor.get_new_errors (lines 91-101): re-read the counters and
subtract the baseline totals recorded by start_monitoring, as plain integer
subtraction. -/
def get_new_errors (supported : Bool) (plat : List Controller) (initCe initUe : Nat) : EccDelta :=
  let current := read_ecc_counters supported plat
  { correctable := (current.ce : Int) - (initCe : Int),
    uncorrectable := (current.ue : Int) - (initUe : Int),
    details := current.details }

/-- A controller none of whose counter files raises on read. -/
def ctlOk (c : Controller) : Prop :=
  c.ceFile ≠ FileState.unreadable ∧ c.ueFile ≠ FileState.unreadable

instance (c : Controller) : Decidable (ctlOk c) := by
  unfold ctlOk; infer_instance

/-- Value a controller contributes to the summed ce counter. -/
def ceVal (c : Controller) : Nat :=
  match c.ceFile with
  | FileState.readable v => v
  | _ => 0

/-- Value a controller contributes to the summed ue counter. -/
def ueVal (c : Controller) : Nat :=
  match c.ueFile with
  | FileState.readable v => v
  | _ => 0

/-- Result record of ComprehensiveRAMTest.run_comprehensive_test.  The five
phase slots are indexed in execution order: 0 address_line, 1 walking_bits,
2 jedec_patterns, 3 bandwidth, 4 row_hammer. -/
structure RunOutcome where
  phases : Fin 5 → Nat × Nat
  eccSupported : Bool
  eccDelta : Option EccDelta
  totalErrors : Int
  totalOperations : Nat
  verdict : Bool

/-- ComprehensiveRAMTest.run_comprehensive_test (lines 609-729).  The five
test phases are nondeterministic at their call sites (timing, the random
generator and the physical memory decide their outcomes), so their returned
(errors, operations) pairs enter as the parameter phaseResult; running i is
the value of the cooperative stop flag self.running at the i-th phase
boundary check (lines 646, 654, 662, 670, 680) - the flag is polled only
there, never inside a phase, so a phase either runs to completion or is
skipped whole with its result slot left at the zero-initialised (0, 0).
After the phases, when ECC is supported, the uncorrectable delta is added to
total_errors when positive (line 702), but lines 710-716 then overwrite
total_errors with the sum of the five phase error slots (in the source's
order address_line, row_hammer, bandwidth, jedec_patterns, walking_bits), so
that addition is dead; the returned verdict is total_errors == 0. -/
def run_comprehensive_test (supported : Bool) (basePlat finalPlat : List Controller)
    (phaseResult : Fin 5 → Nat × Nat) (running : Fin 5 → Bool) : RunOutcome :=
  let initial := read_ecc_counters supported basePlat
  let slot : Fin 5 → Nat × Nat := fun i => if running i then phaseResult i else (0, 0)
  let eccDelta : Option EccDelta :=
    if supported then some (get_new_errors supported finalPlat initial.ce initial.ue) else none
  let totalErrorsAfterEccCheck : Int :=
    match eccDelta with
    | some d => if 0 < d.uncorrectable then 0 + d.uncorrectable else 0
    | none => 0
  let totalErrors : Int :=
    (((slot 0).1 + (slot 4).1 + (slot 3).1 + (slot 2).1 + (slot 1).1 : Nat) : Int)
  let totalOperations : Nat :=
    (slot 0).2 + (slot 4).2 + (slot 3).2 + (slot 2).2 + (slot 1).2
  let _ := totalErrorsAfterEccCheck
  { phases := slot, eccSupported := supported, eccDelta := eccDelta,
    totalErrors := totalErrors, totalOperations := totalOperations,
    verdict := totalErrors == 0 }

/-- When an operator interrupt (SIGINT) can arrive relative to main (lines
805-845).  run_comprehensive_test installs self.signal_handler for SIGINT
and SIGTERM at lines 612-613, replacing the default KeyboardInterrupt
behaviour, so only an interrupt delivered before that registration raises
KeyboardInterrupt in main; one delivered during the run merely sets
self.running to False, which the orchestrator polls at the next phase
boundary. duringRun k means the interrupt arrived while phase k was
executing, so the boundary checks up to and including k saw the flag still
true. -/
inductive InterruptMoment where
  | noInterrupt : InterruptMoment
  | beforeHandlersRegistered : InterruptMoment
  | duringRun : Fin 5 → InterruptMoment

/-- Exit code of main (lines 805-845): 130 only via the KeyboardInterrupt
handler, otherwise 0 when run_comprehensive_test returned True and 1 when it
returned False (the unrecoverable-error path to exit code 2 is out of scope
of the modelled inputs). -/
def mainExitCode (mi : InterruptMoment) (supported : Bool)
    (basePlat finalPlat : List Controller) (phaseResult : Fin 5 → Nat × Nat) : Nat :=
  match mi with
  | InterruptMoment.beforeHandlersRegistered => 130
  | InterruptMoment.noInterrupt =>
    if (run_comprehensive_test supported basePlat finalPlat phaseResult
        (fun _ => true)).verdict then 0 else 1
  | InterruptMoment.duringRun k =>
    if (run_comprehensive_test supported basePlat finalPlat phaseResult
        (fun i => decide (i ≤ k))).verdict then 0 else 1

/-- Concrete platform for the C1 analysis: one controller with readable
counters, zero at baseline. -/
def c1Base : List Controller := [⟨0, FileState.readable 0, FileState.readable 0⟩]

/-- Concrete platform for the C1 analysis: the same controller after the
run, with one new uncorrectable error. -/
def c1Final : List Controller := [⟨0, FileState.readable 0, FileState.readable 1⟩]

/-- Concrete platform with two well-behaved controllers: one readable
ce_count and missing ue_count, one missing ce_count and readable ue_count. -/
def c4Plat : List Controller :=
  [⟨5, FileState.readable 3, FileState.missing⟩,
   ⟨7, FileState.missing, FileState.readable 4⟩]

/-! Byte-store lemmas. -/

theorem writeBytes_apply_in (s : Store) (off len v a : Nat)
    (h1 : off ≤ a) (h2 : a < off + len) :
    writeBytes s off len v a = v / 256 ^ (a - off) % 256 := by
  simp only [writeBytes]
  rw [if_pos ⟨h1, h2⟩]

theorem writeBytes_apply_out (s : Store) (off len v a : Nat)
    (h : a < off ∨ off + len ≤ a) :
    writeBytes s off len v a = s a := by
  simp only [writeBytes]
  rw [if_neg (by omega)]

theorem readBytes_congr : ∀ (n : Nat) (s1 s2 : Store) (off : Nat),
    (∀ k, k < n → s1 (off + k) = s2 (off + k)) →
    readBytes s1 off n = readBytes s2 off n
  | 0, _, _, _, _ => rfl
  | n + 1, s1, s2, off, h => by
    simp only [readBytes]
    have h0 : s1 off = s2 off := by simpa using h 0 (by omega)
    have ht : readBytes s1 (off + 1) n = readBytes s2 (off + 1) n := by
      apply readBytes_congr
      intro k hk
      have e : off + 1 + k = off + (k + 1) := by omega
      rw [e]
      exact h (k + 1) (by omega)
    rw [h0, ht]

theorem readBytes_writeBytes : ∀ (n : Nat) (s : Store) (off v : Nat),
    readBytes (writeBytes s off n v) off n = v % 256 ^ n
  | 0, s, off, v => by simp [readBytes, Nat.mod_one]
  | n + 1, s, off, v => by
    simp only [readBytes]
    have h1 : writeBytes s off (n + 1) v off = v % 256 := by
      rw [writeBytes_apply_in s off (n + 1) v off (by omega) (by omega)]
      simp
    have h2 : readBytes (writeBytes s off (n + 1) v) (off + 1) n
        = readBytes (writeBytes s (off + 1) n (v / 256)) (off + 1) n := by
      apply readBytes_congr
      intro k hk
      rw [writeBytes_apply_in s off (n + 1) v (off + 1 + k) (by omega) (by omega),
        writeBytes_apply_in s (off + 1) n (v / 256) (off + 1 + k) (by omega) (by omega)]
      have e1 : off + 1 + k - off = k + 1 := by omega
      have e2 : off + 1 + k - (off + 1) = k := by omega
      rw [e1, e2]
      congr 1
      rw [Nat.div_div_eq_div_mul]
      congr 1
      rw [Nat.pow_succ]
      ring
    rw [h1, h2, readBytes_writeBytes n s (off + 1) (v / 256)]
    rw [show (256 : Nat) ^ (n + 1) = 256 * 256 ^ n from by rw [Nat.pow_succ]; ring]
    exact (Nat.mod_mul).symm

theorem readBytes_writeBytes_disjoint (n : Nat) (s : Store) (off off2 len2 v : Nat)
    (h : off + n ≤ off2 ∨ off2 + len2 ≤ off) :
    readBytes (writeBytes s off2 len2 v) off n = readBytes s off n := by
  apply readBytes_congr
  intro k hk
  exact writeBytes_apply_out s off2 len2 v (off + k) (by omega)

/-! Bit-length lemma. -/

theorem bitLenAux_pow_le : ∀ (fuel n b : Nat), n ≤ fuel → b < bitLenAux fuel n → 2 ^ b ≤ n
  | 0, _, _, _, hb => by simp [bitLenAux] at hb
  | fuel + 1, n, b, hn, hb => by
    by_cases h0 : n = 0
    · simp [bitLenAux, h0] at hb
    · simp only [bitLenAux, if_neg h0] at hb
      match b with
      | 0 => simpa using Nat.one_le_iff_ne_zero.mpr h0
      | b + 1 =>
        have hrec : 2 ^ b ≤ n / 2 :=
          bitLenAux_pow_le fuel (n / 2) b (by omega) (by omega)
        have : 2 ^ (b + 1) = 2 * 2 ^ b := by rw [Nat.pow_succ]; ring
        omega

theorem bitLen_pow_le (n b : Nat) (h : b < bitLen n) : 2 ^ b ≤ n :=
  bitLenAux_pow_le n n b le_rfl h

/-! Offset-list lemmas. -/

theorem ascOffsets_length (stop : Nat) : (ascOffsets stop).length = (stop + 7) / 8 := by
  simp [ascOffsets]

theorem ascOffsets_pairwise (stop : Nat) :
    (ascOffsets stop).Pairwise (fun o1 o2 => o1 + 8 ≤ o2 ∨ o2 + 8 ≤ o1) := by
  unfold ascOffsets
  rw [List.pairwise_map]
  exact (List.pairwise_lt_range _).imp (fun h => by omega)

theorem descOffsets_eq_reverse (stop : Nat) (h8 : stop % 8 = 0) :
    descOffsets stop = (ascOffsets stop).reverse := by
  obtain ⟨n, rfl⟩ : ∃ n, stop = 8 * n := ⟨stop / 8, by omega⟩
  cases n with
  | zero => simp [descOffsets, ascOffsets]
  | succ m =>
    unfold descOffsets ascOffsets
    rw [if_neg (by omega)]
    have h1 : (8 * (m + 1) - 8) / 8 + 1 = m + 1 := by omega
    have h2 : (8 * (m + 1) + 7) / 8 = m + 1 := by omega
    rw [h1, h2, ← List.map_reverse, List.range_eq_range' (m + 1), List.reverse_range',
      List.map_map, ← List.range_eq_range' (m + 1)]
    apply List.map_congr_left
    intro k hk
    rw [List.mem_range] at hk
    simp only [Function.comp]
    omega

theorem mem_descOffsets (stop i : Nat) (h8 : stop % 8 = 0) :
    i ∈ descOffsets stop ↔ i ∈ ascOffsets stop := by
  rw [descOffsets_eq_reverse stop h8, List.mem_reverse]

theorem descOffsets_pairwise (stop : Nat) (h8 : stop % 8 = 0) :
    (descOffsets stop).Pairwise (fun o1 o2 => o1 + 8 ≤ o2 ∨ o2 + 8 ≤ o1) := by
  rw [descOffsets_eq_reverse stop h8, List.pairwise_reverse]
  exact (ascOffsets_pairwise stop).imp (fun h => h.symm)

theorem ascOffsets_cover (stop a : Nat) (ha : a < stop) :
    ∃ i ∈ ascOffsets stop, i ≤ a ∧ a < i + 8 := by
  refine ⟨8 * (a / 8), ?_, by omega, by omega⟩
  simp only [ascOffsets, List.mem_map, List.mem_range]
  exact ⟨a / 8, by omega, rfl⟩

/-! marchPass lemmas.  The disjointness relation on two word offsets states
that their 8-byte ranges do not overlap. -/

theorem marchPass_wrNone_store (rd : Option Nat) :
    ∀ (l : List Nat) (st : MarchResult), (marchPass rd none st l).store = st.store
  | [], _ => rfl
  | i :: l, st => by
    simp only [marchPass]
    exact marchPass_wrNone_store rd l _

theorem marchPass_rdNone_errors (wr : Option Nat) :
    ∀ (l : List Nat) (st : MarchResult), (marchPass none wr st l).errors = st.errors
  | [], _ => rfl
  | i :: l, st => by
    simp only [marchPass]
    exact marchPass_rdNone_errors wr l _

theorem marchPass_ops_wr (v : Nat) :
    ∀ (l : List Nat) (st : MarchResult),
    (marchPass none (some v) st l).ops = st.ops + l.length
  | [], st => by simp [marchPass]
  | i :: l, st => by
    simp only [marchPass]
    rw [marchPass_ops_wr v l]
    simp
    omega

theorem marchPass_ops_rd (exp : Nat) :
    ∀ (l : List Nat) (st : MarchResult),
    (marchPass (some exp) none st l).ops = st.ops + l.length
  | [], st => by simp [marchPass]
  | i :: l, st => by
    simp only [marchPass]
    rw [marchPass_ops_rd exp l]
    simp
    omega

theorem marchPass_ops_rdwr (exp v : Nat) :
    ∀ (l : List Nat) (st : MarchResult),
    (marchPass (some exp) (some v) st l).ops = st.ops + 2 * l.length
  | [], st => by simp [marchPass]
  | i :: l, st => by
    simp only [marchPass]
    rw [marchPass_ops_rdwr exp v l]
    simp
    omega

theorem marchPass_errors_le (rd wr : Option Nat) :
    ∀ (l : List Nat) (st : MarchResult),
    st.errors ≤ st.ops → (marchPass rd wr st l).errors ≤ (marchPass rd wr st l).ops
  | [], _, h => h
  | i :: l, st, h => by
    simp only [marchPass]
    apply marchPass_errors_le rd wr l
    rcases rd with _ | exp <;> rcases wr with _ | v <;> simp <;>
      first
        | omega
        | (split <;> omega)

theorem marchPass_read_untouched (rd : Option Nat) (v : Nat) :
    ∀ (l : List Nat) (st : MarchResult) (off n : Nat),
    (∀ j ∈ l, off + n ≤ j ∨ j + 8 ≤ off) →
    readBytes (marchPass rd (some v) st l).store off n = readBytes st.store off n
  | [], _, _, _, _ => rfl
  | j :: l, st, off, n, h => by
    simp only [marchPass]
    rw [marchPass_read_untouched rd v l _ off n
      (fun k hk => h k (List.mem_cons_of_mem j hk))]
    simp only []
    exact readBytes_writeBytes_disjoint n st.store off j 8 v (h j (List.mem_cons_self j l))

theorem marchPass_write_read (rd : Option Nat) (v : Nat) :
    ∀ (l : List Nat) (st : MarchResult),
    l.Pairwise (fun o1 o2 => o1 + 8 ≤ o2 ∨ o2 + 8 ≤ o1) →
    ∀ i ∈ l, readBytes (marchPass rd (some v) st l).store i 8 = v % 256 ^ 8
  | [], _, _, i, hi => absurd hi (List.not_mem_nil i)
  | j :: l, st, hp, i, hi => by
    simp only [marchPass]
    rcases List.mem_cons.mp hi with rfl | hil
    · rw [marchPass_read_untouched rd v l _ i 8
        (fun k hk => List.rel_of_pairwise_cons hp hk)]
      simpa using readBytes_writeBytes 8 st.store i v
    · exact marchPass_write_read rd v l _ hp.of_cons i hil

theorem marchPass_write_zero (rd : Option Nat) :
    ∀ (l : List Nat) (st : MarchResult) (a : Nat),
    ((∃ i ∈ l, i ≤ a ∧ a < i + 8) ∨ st.store a = 0) →
    (marchPass rd (some 0) st l).store a = 0
  | [], st, a, h => by
    rcases h with ⟨i, hi, _⟩ | h
    · exact absurd hi (List.not_mem_nil i)
    · exact h
  | j :: l, st, a, h => by
    simp only [marchPass]
    apply marchPass_write_zero rd l
    simp only []
    rcases h with ⟨i, hi, hcov⟩ | hz
    · rcases List.mem_cons.mp hi with rfl | hil
      · right
        rw [writeBytes_apply_in st.store i 8 0 a hcov.1 (by omega)]
        simp
      · left
        exact ⟨i, hil, hcov⟩
    · right
      by_cases hc : j ≤ a ∧ a < j + 8
      · rw [writeBytes_apply_in st.store j 8 0 a hc.1 (by omega)]
        simp
      · rw [writeBytes_apply_out st.store j 8 0 a (by omega)]
        exact hz

theorem marchPass_errors_of_read (wr : Option Nat) (exp : Nat) :
    ∀ (l : List Nat) (st : MarchResult),
    l.Pairwise (fun o1 o2 => o1 + 8 ≤ o2 ∨ o2 + 8 ≤ o1) →
    (∀ i ∈ l, readBytes st.store i 8 = exp) →
    (marchPass (some exp) wr st l).errors = st.errors
  | [], _, _, _ => rfl
  | j :: l, st, hp, hr => by
    have hj : readBytes st.store j 8 = exp := hr j (List.mem_cons_self j l)
    simp only [marchPass]
    rw [marchPass_errors_of_read wr exp l _ hp.of_cons ?_]
    · simp [hj]
    · intro i hil
      simp only []
      rcases wr with _ | v
      · exact hr i (List.mem_cons_of_mem j hil)
      · rw [readBytes_writeBytes_disjoint 8 st.store i j 8 v
          (List.rel_of_pairwise_cons hp hil).symm]
        exact hr i (List.mem_cons_of_mem j hil)

/-! JEDEC algorithm results. -/

theorem allOnes64_mod : allOnes64 % 256 ^ 8 = allOnes64 := by decide

theorem mats_plus_errors_zero (bs : Nat) (h8 : bs % 8 = 0) (s : Store) :
    (mats_plus_test bs s).errors = 0 := by
  have hA := ascOffsets_pairwise bs
  have hD := descOffsets_pairwise bs h8
  simp only [mats_plus_test]
  set st1 := marchPass none (some 0) ⟨s, 0, 0⟩ (ascOffsets bs) with hst1
  have h1e : st1.errors = 0 := marchPass_rdNone_errors _ _ _
  have h1r : ∀ i ∈ ascOffsets bs, readBytes st1.store i 8 = 0 := by
    intro i hi
    simpa using marchPass_write_read none 0 (ascOffsets bs) ⟨s, 0, 0⟩ hA i hi
  set st2 := marchPass (some 0) (some allOnes64) st1 (ascOffsets bs) with hst2
  have h2e : st2.errors = 0 := by
    rw [hst2, marchPass_errors_of_read _ _ _ _ hA h1r, h1e]
  have h2r : ∀ i ∈ descOffsets bs, readBytes st2.store i 8 = allOnes64 := by
    intro i hi
    rw [mem_descOffsets bs i h8] at hi
    have := marchPass_write_read (some 0) allOnes64 (ascOffsets bs) st1 hA i hi
    rwa [allOnes64_mod] at this
  set st3 := marchPass (some allOnes64) (some 0) st2 (descOffsets bs) with hst3
  have h3e : st3.errors = 0 := by
    rw [hst3, marchPass_errors_of_read _ _ _ _ hD h2r, h2e]
  have h3r : ∀ i ∈ ascOffsets bs, readBytes st3.store i 8 = 0 := by
    intro i hi
    simpa using marchPass_write_read (some allOnes64) 0 (descOffsets bs) st2 hD i
      ((mem_descOffsets bs i h8).mpr hi)
  rw [marchPass_errors_of_read none 0 (ascOffsets bs) st3 hA h3r, h3e]

theorem march_c_minus_errors_zero (bs : Nat) (h8 : bs % 8 = 0) (s : Store) :
    (march_c_minus_test bs s).errors = 0 := by
  have hA := ascOffsets_pairwise bs
  have hD := descOffsets_pairwise bs h8
  simp only [march_c_minus_test]
  set st1 := marchPass none (some 0) ⟨s, 0, 0⟩ (ascOffsets bs) with hst1
  have h1e : st1.errors = 0 := marchPass_rdNone_errors _ _ _
  have h1r : ∀ i ∈ ascOffsets bs, readBytes st1.store i 8 = 0 := by
    intro i hi
    simpa using marchPass_write_read none 0 (ascOffsets bs) ⟨s, 0, 0⟩ hA i hi
  set st2 := marchPass (some 0) (some allOnes64) st1 (ascOffsets bs) with hst2
  have h2e : st2.errors = 0 := by
    rw [hst2, marchPass_errors_of_read _ _ _ _ hA h1r, h1e]
  have h2r : ∀ i ∈ ascOffsets bs, readBytes st2.store i 8 = allOnes64 := by
    intro i hi
    have := marchPass_write_read (some 0) allOnes64 (ascOffsets bs) st1 hA i hi
    rwa [allOnes64_mod] at this
  set st3 := marchPass (some allOnes64) (some 0) st2 (ascOffsets bs) with hst3
  have h3e : st3.errors = 0 := by
    rw [hst3, marchPass_errors_of_read _ _ _ _ hA h2r, h2e]
  have h3r : ∀ i ∈ descOffsets bs, readBytes st3.store i 8 = 0 := by
    intro i hi
    rw [mem_descOffsets bs i h8] at hi
    simpa using marchPass_write_read (some allOnes64) 0 (ascOffsets bs) st2 hA i hi
  set st4 := marchPass (some 0) (some allOnes64) st3 (descOffsets bs) with hst4
  have h4e : st4.errors = 0 := by
    rw [hst4, marchPass_errors_of_read _ _ _ _ hD h3r, h3e]
  have h4r : ∀ i ∈ descOffsets bs, readBytes st4.store i 8 = allOnes64 := by
    intro i hi
    have := marchPass_write_read (some 0) allOnes64 (descOffsets bs) st3 hD i hi
    rwa [allOnes64_mod] at this
  set st5 := marchPass (some allOnes64) (some 0) st4 (descOffsets bs) with hst5
  have h5e : st5.errors = 0 := by
    rw [hst5, marchPass_errors_of_read _ _ _ _ hD h4r, h4e]
  have h5r : ∀ i ∈ ascOffsets bs, readBytes st5.store i 8 = 0 := by
    intro i hi
    simpa using marchPass_write_read (some allOnes64) 0 (descOffsets bs) st4 hD i
      ((mem_descOffsets bs i h8).mpr hi)
  rw [marchPass_errors_of_read none 0 (ascOffsets bs) st5 hA h5r, h5e]

theorem mats_plus_store_zero (bs : Nat) (h8 : bs % 8 = 0) (s : Store) (a : Nat)
    (ha : a < bs) : (mats_plus_test bs s).store a = 0 := by
  simp only [mats_plus_test]
  rw [marchPass_wrNone_store]
  apply marchPass_write_zero
  left
  obtain ⟨i, hi, hcov⟩ := ascOffsets_cover bs a ha
  exact ⟨i, (mem_descOffsets bs i h8).mpr hi, hcov⟩

theorem march_c_minus_store_zero (bs : Nat) (h8 : bs % 8 = 0) (s : Store) (a : Nat)
    (ha : a < bs) : (march_c_minus_test bs s).store a = 0 := by
  simp only [march_c_minus_test]
  rw [marchPass_wrNone_store]
  apply marchPass_write_zero
  left
  obtain ⟨i, hi, hcov⟩ := ascOffsets_cover bs a ha
  exact ⟨i, (mem_descOffsets bs i h8).mpr hi, hcov⟩

/-! Address-line stage lemmas. -/

theorem walkingOnes_counts (bs : Nat) :
    ∀ (l : List Nat) (st : ALState), (∀ b ∈ l, 2 ^ b + 8 < bs) →
    (walkingOnes bs st l).ops = st.ops + l.length ∧
    (walkingOnes bs st l).writes = st.writes + l.length ∧
    (walkingOnes bs st l).reads = st.reads + l.length ∧
    (walkingOnes bs st l).errors = st.errors
  | [], st, _ => by simp [walkingOnes]
  | b :: l, st, h => by
    have hb := h b (List.mem_cons_self b l)
    obtain ⟨ho, hw, hr, he⟩ := walkingOnes_counts bs l
      { store := writeBytes st.store (2 ^ b) 4 ((0xAA55AA55 + b) % 2 ^ 32),
        errors := st.errors, ops := st.ops + 1,
        writes := st.writes + 1, reads := st.reads + 1 }
      (fun x hx => h x (List.mem_cons_of_mem b hx))
    have hpat : readBytes (writeBytes st.store (2 ^ b) 4 ((0xAA55AA55 + b) % 2 ^ 32))
        (2 ^ b) 4 = (0xAA55AA55 + b) % 2 ^ 32 := by
      rw [readBytes_writeBytes]
      exact Nat.mod_eq_of_lt
        (lt_of_lt_of_le (Nat.mod_lt _ (by norm_num)) (by norm_num))
    simp only [walkingOnes]
    rw [if_neg (by omega)]
    rw [hpat, if_neg (fun hc => hc rfl)]
    refine ⟨?_, ?_, ?_, ?_⟩ <;>
      simp only [ho, hw, hr, he, List.length_cons] <;> omega

theorem walkingZeros_counts (bs mask : Nat) :
    ∀ (l : List Nat) (st : ALState),
    (walkingZeros bs mask st l).ops = st.ops + l.length ∧
    (walkingZeros bs mask st l).writes
      = st.writes + l.countP (fun b => decide ((mask ^^^ 2 ^ b) + 8 < bs)) ∧
    (walkingZeros bs mask st l).reads
      = st.reads + l.countP (fun b => decide ((mask ^^^ 2 ^ b) + 8 < bs)) ∧
    (walkingZeros bs mask st l).errors = st.errors
  | [], st => by simp [walkingZeros]
  | b :: l, st => by
    by_cases hb : bs ≤ (mask ^^^ 2 ^ b) + 8
    · obtain ⟨ho, hw, hr, he⟩ := walkingZeros_counts bs mask l
        { store := st.store, errors := st.errors, ops := st.ops + 1,
          writes := st.writes, reads := st.reads }
      simp only [walkingZeros]
      rw [if_pos hb]
      refine ⟨?_, ?_, ?_, ?_⟩ <;>
        simp only [ho, hw, hr, he, List.length_cons, List.countP_cons,
          decide_eq_true_eq, show ¬((mask ^^^ 2 ^ b) + 8 < bs) by omega,
          if_false, decide_eq_false_iff_not] <;> omega
    · obtain ⟨ho, hw, hr, he⟩ := walkingZeros_counts bs mask l
        { store := writeBytes st.store (mask ^^^ 2 ^ b) 4 ((0x55AA55AA + b) % 2 ^ 32),
          errors := st.errors, ops := st.ops + 1,
          writes := st.writes + 1, reads := st.reads + 1 }
      have hpat : readBytes
          (writeBytes st.store (mask ^^^ 2 ^ b) 4 ((0x55AA55AA + b) % 2 ^ 32))
          (mask ^^^ 2 ^ b) 4 = (0x55AA55AA + b) % 2 ^ 32 := by
        rw [readBytes_writeBytes]
        exact Nat.mod_eq_of_lt
          (lt_of_lt_of_le (Nat.mod_lt _ (by norm_num)) (by norm_num))
      simp only [walkingZeros]
      rw [if_neg hb]
      rw [hpat, if_neg (fun hc => hc rfl)]
      refine ⟨?_, ?_, ?_, ?_⟩ <;>
        simp only [ho, hw, hr, he, List.length_cons, List.countP_cons,
          show (mask ^^^ 2 ^ b) + 8 < bs by omega, decide_eq_true_eq, if_true,
          decide_eq_true] <;> omega

theorem adjacencyWrite_counts :
    ∀ (l : List Nat) (st : ALState),
    (adjacencyWrite st l).ops = st.ops + l.length ∧
    (adjacencyWrite st l).writes = st.writes + l.length ∧
    (adjacencyWrite st l).reads = st.reads ∧
    (adjacencyWrite st l).errors = st.errors
  | [], st => by simp [adjacencyWrite]
  | i :: l, st => by
    obtain ⟨ho, hw, hr, he⟩ := adjacencyWrite_counts l
      { store := writeBytes st.store i 8 i, errors := st.errors,
        ops := st.ops + 1, writes := st.writes + 1, reads := st.reads }
    simp only [adjacencyWrite]
    refine ⟨?_, ?_, ?_, ?_⟩ <;>
      simp only [ho, hw, hr, he, List.length_cons] <;> omega

theorem adjacencyVerify_counts :
    ∀ (l : List Nat) (st : ALState),
    (adjacencyVerify st l).ops = st.ops + l.length ∧
    (adjacencyVerify st l).reads = st.reads + l.length ∧
    (adjacencyVerify st l).writes = st.writes
  | [], st => by simp [adjacencyVerify]
  | i :: l, st => by
    obtain ⟨ho, hr, hw⟩ := adjacencyVerify_counts l
      { store := st.store,
        errors := if readBytes st.store i 8 ≠ i then st.errors + 1 else st.errors,
        ops := st.ops + 1, writes := st.writes, reads := st.reads + 1 }
    simp only [adjacencyVerify]
    refine ⟨?_, ?_, ?_⟩ <;>
      simp only [ho, hr, hw, List.length_cons] <;> omega

theorem walkingOnes_le (bs : Nat) :
    ∀ (l : List Nat) (st : ALState), st.errors ≤ st.ops →
    (walkingOnes bs st l).errors ≤ (walkingOnes bs st l).ops
  | [], _, h => h
  | b :: l, st, h => by
    simp only [walkingOnes]
    split
    · dsimp only
      omega
    · apply walkingOnes_le bs l
      dsimp only
      split <;> omega

theorem walkingZeros_le (bs mask : Nat) :
    ∀ (l : List Nat) (st : ALState), st.errors ≤ st.ops →
    (walkingZeros bs mask st l).errors ≤ (walkingZeros bs mask st l).ops
  | [], _, h => h
  | b :: l, st, h => by
    simp only [walkingZeros]
    split
    · apply walkingZeros_le bs mask l
      dsimp only
      omega
    · apply walkingZeros_le bs mask l
      dsimp only
      split <;> omega

theorem adjacencyWrite_le :
    ∀ (l : List Nat) (st : ALState), st.errors ≤ st.ops →
    (adjacencyWrite st l).errors ≤ (adjacencyWrite st l).ops
  | [], _, h => h
  | i :: l, st, h => by
    simp only [adjacencyWrite]
    apply adjacencyWrite_le l
    dsimp only
    omega

theorem adjacencyVerify_le :
    ∀ (l : List Nat) (st : ALState), st.errors ≤ st.ops →
    (adjacencyVerify st l).errors ≤ (adjacencyVerify st l).ops
  | [], _, h => h
  | i :: l, st, h => by
    simp only [adjacencyVerify]
    apply adjacencyVerify_le l
    dsimp only
    split <;> omega

/-! Errors-versus-operations invariants for the five phases. -/

theorem mats_plus_le (bs : Nat) (s : Store) :
    (mats_plus_test bs s).errors ≤ (mats_plus_test bs s).ops := by
  simp only [mats_plus_test]
  apply marchPass_errors_le
  apply marchPass_errors_le
  apply marchPass_errors_le
  apply marchPass_errors_le
  exact le_rfl

theorem march_c_minus_le (bs : Nat) (s : Store) :
    (march_c_minus_test bs s).errors ≤ (march_c_minus_test bs s).ops := by
  simp only [march_c_minus_test]
  apply marchPass_errors_le
  apply marchPass_errors_le
  apply marchPass_errors_le
  apply marchPass_errors_le
  apply marchPass_errors_le
  apply marchPass_errors_le
  exact le_rfl

theorem test_jedec_patterns_le (mm : Nat) :
    (test_jedec_patterns mm).1 ≤ (test_jedec_patterns mm).2 := by
  simp only [test_jedec_patterns]
  exact Nat.add_le_add (mats_plus_le _ _) (march_c_minus_le _ _)

theorem wbRound_le (limit : Nat) (st : MarchResult) (pat : Nat)
    (h : st.errors ≤ st.ops) :
    (wbRound limit st pat).errors ≤ (wbRound limit st pat).ops := by
  simp only [wbRound]
  apply marchPass_errors_le
  apply marchPass_errors_le
  exact h

theorem foldl_wbRound_le (limit : Nat) :
    ∀ (l : List Nat) (st : MarchResult), st.errors ≤ st.ops →
    (l.foldl (wbRound limit) st).errors ≤ (l.foldl (wbRound limit) st).ops
  | [], _, h => h
  | p :: l, st, h => by
    simp only [List.foldl_cons]
    exact foldl_wbRound_le limit l _ (wbRound_le limit st p h)

theorem test_walking_bits_le (mm : Nat) :
    (test_walking_bits mm).errors ≤ (test_walking_bits mm).ops := by
  simp only [test_walking_bits]
  apply foldl_wbRound_le
  apply foldl_wbRound_le
  exact le_rfl

theorem test_address_lines_le (mm : Nat) :
    (test_address_lines mm).errors ≤ (test_address_lines mm).ops := by
  simp only [test_address_lines]
  apply adjacencyVerify_le
  apply adjacencyWrite_le
  apply walkingZeros_le
  apply walkingOnes_le
  exact le_rfl

theorem bwWritePhase_le (slots : Nat) :
    ∀ (fuel wc : Nat) (st : BWState), st.errors ≤ st.ops →
    (bwWritePhase slots st wc fuel).errors ≤ (bwWritePhase slots st wc fuel).ops
  | 0, _, _, h => h
  | fuel + 1, wc, st, h => by
    simp only [bwWritePhase]
    apply bwWritePhase_le slots fuel (wc + 1)
    dsimp only
    omega

theorem bwReadPhase_le (slots : Nat) :
    ∀ (fuel rc : Nat) (st : BWState), st.errors ≤ st.ops →
    (bwReadPhase slots st rc fuel).errors ≤ (bwReadPhase slots st rc fuel).ops
  | 0, _, _, h => h
  | fuel + 1, rc, st, h => by
    simp only [bwReadPhase]
    apply bwReadPhase_le slots fuel (rc + 1)
    split <;> dsimp only <;> omega

theorem bwRandomPhase_le :
    ∀ (rng : List (Nat × Nat)) (st : BWState), st.errors ≤ st.ops →
    (bwRandomPhase st rng).errors ≤ (bwRandomPhase st rng).ops
  | [], _, h => h
  | (off, v) :: l, st, h => by
    simp only [bwRandomPhase]
    apply bwRandomPhase_le l
    split <;> dsimp only <;> omega

theorem test_bandwidth_le (mm k1 k2 : Nat) (rng : List (Nat × Nat)) :
    (test_bandwidth mm k1 k2 rng).errors ≤ (test_bandwidth mm k1 k2 rng).ops := by
  simp only [test_bandwidth]
  apply bwRandomPhase_le
  apply bwReadPhase_le
  apply bwWritePhase_le
  exact le_rfl

theorem hammerLoop_ops (a1 a2 : Nat) :
    ∀ (fuel : Nat) (s : Store) (o : Nat), o ≤ (hammerLoop a1 a2 s o fuel).2
  | 0, _, _ => le_rfl
  | fuel + 1, s, o => by
    simp only [hammerLoop]
    exact le_trans (by omega) (hammerLoop_ops a1 a2 fuel _ (o + 2))

theorem victimScan_le (s : Store) :
    ∀ (l : List Nat) (e o : Nat), e ≤ o →
    (victimScan s e o l).1 ≤ (victimScan s e o l).2
  | [], _, _, h => h
  | a :: l, e, o, h => by
    simp only [victimScan]
    apply victimScan_le s l
    split <;> omega

theorem hammerRound_le (bs iters : Nat) (st : Store × Nat × Nat) (r : Nat)
    (h : st.2.1 ≤ st.2.2) :
    (hammerRound bs iters st r).2.1 ≤ (hammerRound bs iters st r).2.2 := by
  simp only [hammerRound]
  split
  · exact h
  · split
    · simpa using h
    · rcases h1 : hammerLoop 0 (3 * r)
        (writeFill (writeFill st.1 r r 0xAA) (2 * r) r 0xAA) st.2.2 iters with ⟨s1, o1⟩
      rcases h2 : victimScan s1 st.2.1 o1 (List.range' r r) with ⟨e2, o2⟩
      rcases h3 : victimScan s1 e2 o2 (List.range' (2 * r) r) with ⟨e3, o3⟩
      simp only [h1, h2, h3]
      have hA : st.2.2 ≤ o1 := by
        have := hammerLoop_ops 0 (3 * r) iters
          (writeFill (writeFill st.1 r r 0xAA) (2 * r) r 0xAA) st.2.2
        rw [h1] at this
        exact this
      have hB : e2 ≤ o2 := by
        have := victimScan_le s1 (List.range' r r) st.2.1 o1 (le_trans h hA)
        rw [h2] at this
        exact this
      have hC : e3 ≤ o3 := by
        have := victimScan_le s1 (List.range' (2 * r) r) e2 o2 hB
        rw [h3] at this
        exact this
      exact hC

theorem test_row_hammer_le (mm iters : Nat) :
    (test_row_hammer mm iters).2.1 ≤ (test_row_hammer mm iters).2.2 := by
  simp only [test_row_hammer, List.foldl_cons, List.foldl_nil]
  apply hammerRound_le
  apply hammerRound_le
  apply hammerRound_le
  exact le_rfl

/-! Operation-count results for the address-line test. -/

theorem pow_ne_block_sub (mm b : Nat) (h : 1 ≤ mm) : 2 ^ b ≠ mm * 1048576 - 8 := by
  intro he
  have ht : mm * 1048576 - 8 = 8 * (mm * 131072 - 1) := by omega
  rcases Nat.lt_or_ge b 4 with hb | hb
  · have hle : 2 ^ b ≤ 8 := by interval_cases b <;> norm_num
    omega
  · have hpow : 2 ^ b = 16 * 2 ^ (b - 4) := by
      rw [show b = 4 + (b - 4) by omega, pow_add]
      norm_num
    omega

theorem walkingOnes_noBreak (mm b : Nat) (h : 1 ≤ mm)
    (hb : b < min 24 (bitLen (mm * 1048576 - 8))) :
    2 ^ b + 8 < mm * 1048576 := by
  have h1 : 2 ^ b ≤ mm * 1048576 - 8 := bitLen_pow_le _ b (by omega)
  have h2 := pow_ne_block_sub mm b h
  omega

theorem test_address_lines_counts (mm : Nat) (h : 1 ≤ mm) :
    (test_address_lines mm).ops
        = 2 * min 24 (bitLen (mm * 1048576 - 8))
          + 2 * ((min 1048576 (mm * 1048576 - 8) + 7) / 8) ∧
    (test_address_lines mm).writes
        = min 24 (bitLen (mm * 1048576 - 8))
          + (List.range (min 24 (bitLen (mm * 1048576 - 8)))).countP
              (fun b => decide
                (((2 ^ min 24 (bitLen (mm * 1048576 - 8)) - 1) ^^^ 2 ^ b) + 8
                  < mm * 1048576))
          + (min 1048576 (mm * 1048576 - 8) + 7) / 8 ∧
    (test_address_lines mm).reads
        = min 24 (bitLen (mm * 1048576 - 8))
          + (List.range (min 24 (bitLen (mm * 1048576 - 8)))).countP
              (fun b => decide
                (((2 ^ min 24 (bitLen (mm * 1048576 - 8)) - 1) ^^^ 2 ^ b) + 8
                  < mm * 1048576))
          + (min 1048576 (mm * 1048576 - 8) + 7) / 8 := by
  have hnat : ((mm * 1048576 : Nat) : Int) - 8 = ((mm * 1048576 - 8 : Nat) : Int) := by
    omega
  simp only [test_address_lines, pyBitLength]
  rw [hnat, Int.natAbs_ofNat]
  obtain ⟨o1, w1, r1, e1⟩ := walkingOnes_counts (mm * 1048576)
    (List.range (min 24 (bitLen (mm * 1048576 - 8)))) ⟨zeroStore, 0, 0, 0, 0⟩
    (fun b hb => walkingOnes_noBreak mm b h (List.mem_range.mp hb))
  obtain ⟨o2, w2, r2, e2⟩ := walkingZeros_counts (mm * 1048576)
    (2 ^ min 24 (bitLen (mm * 1048576 - 8)) - 1)
    (List.range (min 24 (bitLen (mm * 1048576 - 8))))
    (walkingOnes (mm * 1048576) ⟨zeroStore, 0, 0, 0, 0⟩
      (List.range (min 24 (bitLen (mm * 1048576 - 8)))))
  obtain ⟨o3, w3, r3, e3⟩ := adjacencyWrite_counts
    (ascOffsets (min 1048576 (mm * 1048576 - 8)))
    (walkingZeros (mm * 1048576) (2 ^ min 24 (bitLen (mm * 1048576 - 8)) - 1)
      (walkingOnes (mm * 1048576) ⟨zeroStore, 0, 0, 0, 0⟩
        (List.range (min 24 (bitLen (mm * 1048576 - 8)))))
      (List.range (min 24 (bitLen (mm * 1048576 - 8)))))
  obtain ⟨o4, r4, w4⟩ := adjacencyVerify_counts
    (ascOffsets (min 1048576 (mm * 1048576 - 8)))
    (adjacencyWrite
      (walkingZeros (mm * 1048576) (2 ^ min 24 (bitLen (mm * 1048576 - 8)) - 1)
        (walkingOnes (mm * 1048576) ⟨zeroStore, 0, 0, 0, 0⟩
          (List.range (min 24 (bitLen (mm * 1048576 - 8)))))
        (List.range (min 24 (bitLen (mm * 1048576 - 8)))))
      (ascOffsets (min 1048576 (mm * 1048576 - 8))))
  refine ⟨?_, ?_, ?_⟩
  · rw [o4, o3, o2, o1, ascOffsets_length, List.length_range]
    dsimp only
    omega
  · rw [w4, w3, w2, w1, ascOffsets_length, List.length_range]
    dsimp only
    omega
  · rw [r4, r3, r2, r1, ascOffsets_length, List.length_range]
    dsimp only
    omega

/-! Random-access phase of the bandwidth test. -/

theorem bwRandomPhase_spec :
    ∀ (rng : List (Nat × Nat)) (st : BWState),
    (∀ p ∈ rng, p.2 < 2 ^ 64) →
    (bwRandomPhase st rng).accessed = st.accessed ++ rng.map Prod.fst ∧
    (bwRandomPhase st rng).errors = st.errors ∧
    (bwRandomPhase st rng).ops = st.ops + 2 * rng.length
  | [], st, _ => by simp [bwRandomPhase]
  | (off, v) :: l, st, h => by
    have hv : v < 2 ^ 64 := h (off, v) (List.mem_cons_self _ _)
    have hrd : readBytes (writeBytes st.store off 8 v) off 8 = v := by
      rw [readBytes_writeBytes]
      exact Nat.mod_eq_of_lt (lt_of_lt_of_le hv (by norm_num))
    obtain ⟨ha, he, ho⟩ := bwRandomPhase_spec l
      { store := writeBytes st.store off 8 v, errors := st.errors,
        ops := st.ops + 2, bytesTransferred := st.bytesTransferred + 16,
        accessed := st.accessed ++ [off] }
      (fun p hp => h p (List.mem_cons_of_mem _ hp))
    simp only [bwRandomPhase]
    rw [hrd, if_neg (fun hc => hc rfl)]
    refine ⟨?_, ?_, ?_⟩
    · rw [ha]
      simp
    · rw [he]
    · rw [ho]
      simp only [List.length_cons]
      omega

/-! ECC read-loop lemmas. -/

theorem readLoop_step_ok (c : Controller) (hc : ctlOk c) (acc : Counters)
    (ceL ueL : Option Nat) (l : List Controller) :
    ∃ ceL2 ueL2 : Option Nat,
      readLoop acc ceL ueL (c :: l)
        = readLoop
            ⟨acc.ce + ceVal c, acc.ue + ueVal c,
              acc.details ++ [(c.name, ceL2.getD 0, ueL2.getD 0)]⟩
            ceL2 ueL2 l := by
  rcases c with ⟨nm, cf, uf⟩
  rcases hc with ⟨h1, h2⟩
  cases cf with
  | unreadable => exact absurd rfl h1
  | missing =>
    cases uf with
    | unreadable => exact absurd rfl h2
    | missing => exact ⟨ceL, ueL, by simp [readLoop, ceVal, ueVal]⟩
    | readable w => exact ⟨ceL, some w, by simp [readLoop, ceVal, ueVal]⟩
  | readable v =>
    cases uf with
    | unreadable => exact absurd rfl h2
    | missing => exact ⟨some v, ueL, by simp [readLoop, ceVal, ueVal]⟩
    | readable w => exact ⟨some v, some w, by simp [readLoop, ceVal, ueVal]⟩

theorem readLoop_ok_names :
    ∀ (l : List Controller) (acc : Counters) (ceL ueL : Option Nat),
    (∀ c ∈ l, ctlOk c) →
    (readLoop acc ceL ueL l).details.map Prod.fst
        = acc.details.map Prod.fst ++ l.map Controller.name ∧
    (readLoop acc ceL ueL l).ce = acc.ce + (l.map ceVal).sum ∧
    (readLoop acc ceL ueL l).ue = acc.ue + (l.map ueVal).sum
  | [], acc, ceL, ueL, _ => by simp [readLoop]
  | c :: l, acc, ceL, ueL, h => by
    obtain ⟨ceL2, ueL2, heq⟩ :=
      readLoop_step_ok c (h c (List.mem_cons_self c l)) acc ceL ueL l
    rw [heq]
    obtain ⟨hd, hce, hue⟩ := readLoop_ok_names l
      ⟨acc.ce + ceVal c, acc.ue + ueVal c,
        acc.details ++ [(c.name, ceL2.getD 0, ueL2.getD 0)]⟩
      ceL2 ueL2 (fun x hx => h x (List.mem_cons_of_mem c hx))
    refine ⟨?_, ?_, ?_⟩
    · rw [hd]
      simp
    · rw [hce]
      simp only [List.map_cons, List.sum_cons]
      omega
    · rw [hue]
      simp only [List.map_cons, List.sum_cons]
      omega

theorem readLoop_fail (c : Controller) (hc : ¬ ctlOk c) (acc : Counters)
    (ceL ueL : Option Nat) (l : List Controller) :
    (readLoop acc ceL ueL (c :: l)).details = acc.details := by
  rcases c with ⟨nm, cf, uf⟩
  cases cf <;> cases uf <;> simp_all [readLoop, ctlOk]

theorem readLoop_prefix_names :
    ∀ (good : List Controller) (c : Controller) (rest : List Controller)
      (acc : Counters) (ceL ueL : Option Nat),
    (∀ x ∈ good, ctlOk x) → ¬ ctlOk c →
    (readLoop acc ceL ueL (good ++ c :: rest)).details.map Prod.fst
      = acc.details.map Prod.fst ++ good.map Controller.name
  | [], c, rest, acc, ceL, ueL, _, hc => by
    simp only [List.nil_append]
    rw [readLoop_fail c hc]
    simp
  | g :: good, c, rest, acc, ceL, ueL, h, hc => by
    obtain ⟨ceL2, ueL2, heq⟩ :=
      readLoop_step_ok g (h g (List.mem_cons_self g good)) acc ceL ueL (good ++ c :: rest)
    simp only [List.cons_append]
    rw [heq, readLoop_prefix_names good c rest
      ⟨acc.ce + ceVal g, acc.ue + ueVal g,
        acc.details ++ [(g.name, ceL2.getD 0, ueL2.getD 0)]⟩
      ceL2 ueL2 (fun x hx => h x (List.mem_cons_of_mem g hx)) hc]
    simp

/-! Claim theorems. -/

/-- Claim C1 (code bug exhibited): on a platform with supported ECC whose
uncorrectable counter grows by one during the run, while all five phases
report zero errors, run_comprehensive_test still returns the verdict true
with total_errors 0: the uncorrectable delta added to total_errors at line
702 is overwritten by the phase sum of lines 710-716, so the claimed
verdict total_errors == 0 AND (unsupported OR uncorrectable delta == 0) is
not what the code computes. -/
theorem C1_verdict_ignores_ecc :
    (run_comprehensive_test true c1Base c1Final (fun _ => (0, 10)) (fun _ => true)).verdict
      = true ∧
    (run_comprehensive_test true c1Base c1Final (fun _ => (0, 10)) (fun _ => true)).eccDelta
      = some ⟨0, 1, [(0, 0, 1)]⟩ ∧
    (run_comprehensive_test true c1Base c1Final (fun _ => (0, 10)) (fun _ => true)).totalErrors
      = 0 := by
  refine ⟨rfl, by decide, by decide⟩

/-- Claim C2 is false on the code: with a recorded baseline correctable
count of 10 and a final snapshot whose single controller reads correctable
5 (a counter reset), get_new_errors returns the negative delta -5 silently;
no anomaly is reported anywhere. -/
theorem C2_delta_negative :
    (get_new_errors true [⟨0, FileState.readable 5, FileState.readable 0⟩] 10 0).correctable
      = -5 ∧
    (get_new_errors true [⟨0, FileState.readable 5, FileState.readable 0⟩] 10 0).correctable
      < 0 := by
  refine ⟨by decide, by decide⟩

/-- Claim C2 (amended): get_new_errors returns exactly the integer
difference final minus baseline in each component, with the details of the
final snapshot passed through; the delta is nonnegative precisely when the
final counter is at least the baseline, so a counter reset yields a
negative value that is returned silently rather than being reported as an
anomaly. -/
theorem C2_delta_formula (supported : Bool) (plat : List Controller) (initCe initUe : Nat) :
    (get_new_errors supported plat initCe initUe).correctable
        = ((read_ecc_counters supported plat).ce : Int) - (initCe : Int) ∧
    (get_new_errors supported plat initCe initUe).uncorrectable
        = ((read_ecc_counters supported plat).ue : Int) - (initUe : Int) ∧
    (get_new_errors supported plat initCe initUe).details
        = (read_ecc_counters supported plat).details ∧
    (0 ≤ (get_new_errors supported plat initCe initUe).correctable
        ↔ initCe ≤ (read_ecc_counters supported plat).ce) ∧
    (0 ≤ (get_new_errors supported plat initCe initUe).uncorrectable
        ↔ initUe ≤ (read_ecc_counters supported plat).ue) := by
  refine ⟨rfl, rfl, rfl, ?_, ?_⟩ <;> simp [get_new_errors]

/-- Claim C3: for every block size that is a multiple of 8 bytes and at
least 64 bytes, MATS+ and then March C- on a freshly allocated all-zero
block (the faithful byte store) report zero errors from each algorithm. -/
theorem C3_jedec_zero_errors (S : Nat) (h8 : S % 8 = 0) (_h64 : 64 ≤ S) :
    (mats_plus_test S zeroStore).errors = 0 ∧
    (march_c_minus_test S (mats_plus_test S zeroStore).store).errors = 0 :=
  ⟨mats_plus_errors_zero S h8 zeroStore, march_c_minus_errors_zero S h8 _⟩

theorem C3_jedec_zero_errors_witness :
    64 % 8 = 0 ∧ 64 ≤ 64 ∧
    ((mats_plus_test 64 zeroStore).errors = 0 ∧
      (march_c_minus_test 64 (mats_plus_test 64 zeroStore).store).errors = 0) :=
  ⟨by decide, by decide, C3_jedec_zero_errors 64 (by decide) (by decide)⟩

/-- Claim C4 is false on the code: a discovered controller whose ce_count
file exists but cannot be read makes read_ecc_counters abandon its loop
through the exception handler of line 79, so that controller is not listed
in the per-controller details at all. -/
theorem C4_unreadable_not_listed :
    (read_ecc_counters true [⟨0, FileState.unreadable, FileState.missing⟩]).details = [] ∧
    ¬ (0 ∈ (read_ecc_counters true
        [⟨0, FileState.unreadable, FileState.missing⟩]).details.map Prod.fst) := by
  refine ⟨by decide, by decide⟩

/-- Claim C4 (amended): counter reads never raise to the orchestrator (the
exception handler turns a failed read into an early return of the counters
accumulated so far); an unsupported platform yields the zero-filled
snapshot; when every controller's files are readable or missing, every
controller is listed in order and the totals are the sums of the readable
values, a missing file contributing zero; but a controller with an
unreadable file ends the scan, so it and all later controllers are absent
from the details. -/
theorem C4_ecc_read_behavior :
    (∀ plat : List Controller, read_ecc_counters false plat = ⟨0, 0, []⟩) ∧
    (∀ plat : List Controller, (∀ c ∈ plat, ctlOk c) →
      (read_ecc_counters true plat).details.map Prod.fst = plat.map Controller.name ∧
      (read_ecc_counters true plat).ce = (plat.map ceVal).sum ∧
      (read_ecc_counters true plat).ue = (plat.map ueVal).sum) ∧
    (∀ (good : List Controller) (c : Controller) (rest : List Controller),
      (∀ x ∈ good, ctlOk x) → ¬ ctlOk c →
      (read_ecc_counters true (good ++ c :: rest)).details.map Prod.fst
        = good.map Controller.name) := by
  refine ⟨fun plat => rfl, fun plat h => ?_, fun good c rest h hc => ?_⟩
  · have := readLoop_ok_names plat ⟨0, 0, []⟩ none none h
    simpa [read_ecc_counters] using this
  · have := readLoop_prefix_names good c rest ⟨0, 0, []⟩ none none h hc
    simpa [read_ecc_counters] using this

theorem C4_ecc_read_behavior_witness :
    (∀ c ∈ c4Plat, ctlOk c) ∧
    ((read_ecc_counters true c4Plat).details.map Prod.fst = c4Plat.map Controller.name ∧
      (read_ecc_counters true c4Plat).ce = (c4Plat.map ceVal).sum ∧
      (read_ecc_counters true c4Plat).ue = (c4Plat.map ueVal).sum) :=
  ⟨by decide, C4_ecc_read_behavior.2.1 c4Plat (by decide)⟩

/-- Claim C5 is false on the code: at memory_mb = 1 the returned operation
count is 262182 while the number of buffer writes plus read-back
comparisons performed is 262216; the walking-ones and walking-zeros probes
count a single operation per loop iteration - including the three skipped
walking-zeros probes, which perform no write or read at all - instead of
one per write plus one per read-back. -/
theorem C5_counterexample :
    (test_address_lines 1).ops
      ≠ (test_address_lines 1).writes + (test_address_lines 1).reads := by
  obtain ⟨ho, hw, hr⟩ := test_address_lines_counts 1 (by decide)
  rw [ho, hw, hr]
  decide

/-- Claim C5 (amended): in the walking-ones and walking-zeros stages every
loop iteration (probe) counts exactly one operation, skipped or not, and
the write and read-back of a non-skipped probe are not counted separately;
only the adjacency stage counts one operation per write and one per
read-back, so for every positive memory budget the returned operation count
is twice the probe-loop bound min(24, bit_length(block_size - 8)) plus
twice the number of 8-byte adjacency slots. -/
theorem C5_ops_per_probe (mm : Nat) (h : 1 ≤ mm) :
    (test_address_lines mm).ops
      = 2 * min 24 (bitLen (mm * 1048576 - 8))
        + 2 * ((min 1048576 (mm * 1048576 - 8) + 7) / 8) :=
  (test_address_lines_counts mm h).1

theorem C5_ops_per_probe_witness :
    1 ≤ 1 ∧
    (test_address_lines 1).ops
      = 2 * min 24 (bitLen (1 * 1048576 - 8))
        + 2 * ((min 1048576 (1 * 1048576 - 8) + 7) / 8) :=
  ⟨by decide, C5_ops_per_probe 1 (by decide)⟩

/-- Claim C6 is false on the code: random.randint(0, block_size - 8) ranges
over every byte offset up to block_size - 8, so with block_size 64 the
unaligned offset 1 is a possible draw, and the random-access phase uses it
as-is: the accessed offset 1 is not divisible by 8. -/
theorem C6_counterexample :
    1 + 8 ≤ 64 ∧
    (bwRandomPhase ⟨zeroStore, 0, 0, 0, []⟩ [(1, 5)]).accessed = [1] ∧
    ¬ (∀ o ∈ (bwRandomPhase ⟨zeroStore, 0, 0, 0, []⟩ [(1, 5)]).accessed, o % 8 = 0) := by
  refine ⟨by decide, by decide, by decide⟩

/-- Claim C6 (amended): in the random-access phase every chosen offset is
an arbitrary byte offset at most block_size - 8 as drawn by the generator -
it need not be 8-byte aligned - and each iteration writes the random 64-bit
value at that offset, immediately reads it back and compares, a mismatch
incrementing the error count (on the faithful store the read-back always
matches, so the count is unchanged), with two operations per iteration. -/
theorem C6_random_access (bs : Nat) (st : BWState) (rng : List (Nat × Nat))
    (h : ∀ p ∈ rng, p.1 + 8 ≤ bs ∧ p.2 < 2 ^ 64) :
    (bwRandomPhase st rng).accessed = st.accessed ++ rng.map Prod.fst ∧
    (∀ o ∈ rng.map Prod.fst, o + 8 ≤ bs) ∧
    (bwRandomPhase st rng).errors = st.errors ∧
    (bwRandomPhase st rng).ops = st.ops + 2 * rng.length := by
  obtain ⟨ha, he, ho⟩ := bwRandomPhase_spec rng st (fun p hp => (h p hp).2)
  refine ⟨ha, ?_, he, ho⟩
  intro o hoo
  obtain ⟨p, hp, rfl⟩ := List.mem_map.mp hoo
  exact (h p hp).1

theorem C6_random_access_witness :
    (∀ p ∈ ([(8, 3)] : List (Nat × Nat)), p.1 + 8 ≤ 64 ∧ p.2 < 2 ^ 64) ∧
    ((bwRandomPhase ⟨zeroStore, 0, 0, 0, []⟩ [(8, 3)]).accessed
        = ([] : List Nat) ++ ([(8, 3)] : List (Nat × Nat)).map Prod.fst ∧
      (∀ o ∈ ([(8, 3)] : List (Nat × Nat)).map Prod.fst, o + 8 ≤ 64) ∧
      (bwRandomPhase ⟨zeroStore, 0, 0, 0, []⟩ [(8, 3)]).errors = 0 ∧
      (bwRandomPhase ⟨zeroStore, 0, 0, 0, []⟩ [(8, 3)]).ops
        = 0 + 2 * ([(8, 3)] : List (Nat × Nat)).length) :=
  ⟨by decide, C6_random_access 64 ⟨zeroStore, 0, 0, 0, []⟩ [(8, 3)] (by decide)⟩

/-- Claim C7: with the stop flag monotone (once false it stays false) and
false at boundary k, phase k and every later phase are skipped with their
result slots left at the zero-initialised (0, 0), every phase whose
boundary check still saw the flag true keeps its result, and aggregation
still runs: the totals are the sums over the five phase slots.  A phase
that has started is atomic in this model, matching the source, which polls
the flag only at the five boundary checks. -/
theorem C7_phase_skip (supported : Bool) (basePlat finalPlat : List Controller)
    (phaseResult : Fin 5 → Nat × Nat) (running : Fin 5 → Bool) (k : Fin 5)
    (hmono : ∀ i j : Fin 5, i ≤ j → running j = true → running i = true)
    (hk : running k = false) :
    (∀ i : Fin 5, k ≤ i →
      (run_comprehensive_test supported basePlat finalPlat phaseResult running).phases i
        = (0, 0)) ∧
    (∀ i : Fin 5, running i = true →
      (run_comprehensive_test supported basePlat finalPlat phaseResult running).phases i
        = phaseResult i) ∧
    (run_comprehensive_test supported basePlat finalPlat phaseResult running).totalErrors
      = ((((run_comprehensive_test supported basePlat finalPlat phaseResult running).phases 0).1
          + ((run_comprehensive_test supported basePlat finalPlat phaseResult running).phases 1).1
          + ((run_comprehensive_test supported basePlat finalPlat phaseResult running).phases 2).1
          + ((run_comprehensive_test supported basePlat finalPlat phaseResult running).phases 3).1
          + ((run_comprehensive_test supported basePlat finalPlat phaseResult running).phases 4).1
          : Nat) : Int) ∧
    (run_comprehensive_test supported basePlat finalPlat phaseResult running).totalOperations
      = ((run_comprehensive_test supported basePlat finalPlat phaseResult running).phases 0).2
        + ((run_comprehensive_test supported basePlat finalPlat phaseResult running).phases 1).2
        + ((run_comprehensive_test supported basePlat finalPlat phaseResult running).phases 2).2
        + ((run_comprehensive_test supported basePlat finalPlat phaseResult running).phases 3).2
        + ((run_comprehensive_test supported basePlat finalPlat phaseResult running).phases 4).2 := by
  refine ⟨?_, ?_, ?_, ?_⟩
  · intro i hki
    have hri : running i = false := by
      cases hri : running i
      · rfl
      · exact absurd (hmono k i hki hri) (by simp [hk])
    simp [run_comprehensive_test, hri]
  · intro i hri
    simp [run_comprehensive_test, hri]
  · simp only [run_comprehensive_test]
    push_cast
    ring
  · simp only [run_comprehensive_test]
    ring

theorem C7_phase_skip_witness :
    (∀ i j : Fin 5, i ≤ j →
      (fun i : Fin 5 => decide (i.val < 2)) j = true →
      (fun i : Fin 5 => decide (i.val < 2)) i = true) ∧
    (fun i : Fin 5 => decide (i.val < 2)) 2 = false ∧
    ((∀ i : Fin 5, (2 : Fin 5) ≤ i →
      (run_comprehensive_test false [] [] (fun _ => (1, 2))
        (fun i : Fin 5 => decide (i.val < 2))).phases i = (0, 0)) ∧
    (∀ i : Fin 5, (fun i : Fin 5 => decide (i.val < 2)) i = true →
      (run_comprehensive_test false [] [] (fun _ => (1, 2))
        (fun i : Fin 5 => decide (i.val < 2))).phases i = (1, 2)) ∧
    (run_comprehensive_test false [] [] (fun _ => (1, 2))
        (fun i : Fin 5 => decide (i.val < 2))).totalErrors
      = ((((run_comprehensive_test false [] [] (fun _ => (1, 2))
            (fun i : Fin 5 => decide (i.val < 2))).phases 0).1
          + ((run_comprehensive_test false [] [] (fun _ => (1, 2))
            (fun i : Fin 5 => decide (i.val < 2))).phases 1).1
          + ((run_comprehensive_test false [] [] (fun _ => (1, 2))
            (fun i : Fin 5 => decide (i.val < 2))).phases 2).1
          + ((run_comprehensive_test false [] [] (fun _ => (1, 2))
            (fun i : Fin 5 => decide (i.val < 2))).phases 3).1
          + ((run_comprehensive_test false [] [] (fun _ => (1, 2))
            (fun i : Fin 5 => decide (i.val < 2))).phases 4).1
          : Nat) : Int) ∧
    (run_comprehensive_test false [] [] (fun _ => (1, 2))
        (fun i : Fin 5 => decide (i.val < 2))).totalOperations
      = ((run_comprehensive_test false [] [] (fun _ => (1, 2))
          (fun i : Fin 5 => decide (i.val < 2))).phases 0).2
        + ((run_comprehensive_test false [] [] (fun _ => (1, 2))
          (fun i : Fin 5 => decide (i.val < 2))).phases 1).2
        + ((run_comprehensive_test false [] [] (fun _ => (1, 2))
          (fun i : Fin 5 => decide (i.val < 2))).phases 2).2
        + ((run_comprehensive_test false [] [] (fun _ => (1, 2))
          (fun i : Fin 5 => decide (i.val < 2))).phases 3).2
        + ((run_comprehensive_test false [] [] (fun _ => (1, 2))
          (fun i : Fin 5 => decide (i.val < 2))).phases 4).2) :=
  ⟨by decide, by decide,
    C7_phase_skip false [] [] (fun _ => (1, 2)) (fun i : Fin 5 => decide (i.val < 2)) 2
      (by decide) (by decide)⟩

/-- Claim C8 is false on the code: run_comprehensive_test rebinds SIGINT to
the cooperative handler before the phases start, so an interrupt arriving
during the run (here while phase 0 executes, with every phase error-free)
only stops the remaining phases; main then exits with the verdict's code 0,
not with 130. -/
theorem C8_counterexample :
    mainExitCode (InterruptMoment.duringRun 0) false [] [] (fun _ => (0, 5)) = 0 ∧
    mainExitCode (InterruptMoment.duringRun 0) false [] [] (fun _ => (0, 5)) ≠ 130 := by
  refine ⟨by decide, by decide⟩

/-- Claim C8 (amended): exit code 130 arises only from an interrupt
delivered before the signal handlers are registered; an interrupt during
the run leads to exit code 0 or 1 according to the verdict over the phases
that completed - 0 exactly when their summed errors are zero - and never to
130. -/
theorem C8_exit_codes (supported : Bool) (basePlat finalPlat : List Controller)
    (phaseResult : Fin 5 → Nat × Nat) :
    mainExitCode InterruptMoment.beforeHandlersRegistered supported basePlat finalPlat
      phaseResult = 130 ∧
    ∀ k : Fin 5,
      mainExitCode (InterruptMoment.duringRun k) supported basePlat finalPlat phaseResult
        ≠ 130 ∧
      (mainExitCode (InterruptMoment.duringRun k) supported basePlat finalPlat phaseResult = 0
        ∨ mainExitCode (InterruptMoment.duringRun k) supported basePlat finalPlat phaseResult
            = 1) ∧
      (mainExitCode (InterruptMoment.duringRun k) supported basePlat finalPlat phaseResult = 0
        ↔ (run_comprehensive_test supported basePlat finalPlat phaseResult
            (fun i => decide (i ≤ k))).totalErrors = 0) := by
  refine ⟨rfl, fun k => ?_⟩
  have hv : (run_comprehensive_test supported basePlat finalPlat phaseResult
        (fun i => decide (i ≤ k))).verdict
      = ((run_comprehensive_test supported basePlat finalPlat phaseResult
        (fun i => decide (i ≤ k))).totalErrors == 0) := rfl
  simp only [mainExitCode, hv]
  cases h : ((run_comprehensive_test supported basePlat finalPlat phaseResult
      (fun i => decide (i ≤ k))).totalErrors == 0) with
  | false =>
    rw [beq_eq_false_iff_ne] at h
    simp [h]
  | true =>
    rw [beq_iff_eq] at h
    simp [h]

/-- Claim C9: for each of the five test phases and all inputs (memory
budget, hammer iteration count, bandwidth loop-body counts and random
draws), the operations count the phase returns is at least its errors
count. -/
theorem C9_errors_le_ops (mm iters k1 k2 : Nat) (rng : List (Nat × Nat)) :
    (test_address_lines mm).errors ≤ (test_address_lines mm).ops ∧
    (test_walking_bits mm).errors ≤ (test_walking_bits mm).ops ∧
    (test_jedec_patterns mm).1 ≤ (test_jedec_patterns mm).2 ∧
    (test_bandwidth mm k1 k2 rng).errors ≤ (test_bandwidth mm k1 k2 rng).ops ∧
    (test_row_hammer mm iters).2.1 ≤ (test_row_hammer mm iters).2.2 :=
  ⟨test_address_lines_le mm, test_walking_bits_le mm, test_jedec_patterns_le mm,
    test_bandwidth_le mm k1 k2 rng, test_row_hammer_le mm iters⟩

/-- Claim C10: over any block whose length is a multiple of 8 bytes, each
JEDEC algorithm leaves every byte of the block zero on return, whatever the
initial contents (the last writing pass writes all-zero words over every
slot and the final pass only reads), so when test_jedec_patterns reuses one
block, March C- starts from exactly the all-zero state a fresh allocation
would provide. -/
theorem C10_jedec_leaves_zero (S : Nat) (s : Store) (h8 : S % 8 = 0) (a : Nat)
    (ha : a < S) :
    (mats_plus_test S s).store a = 0 ∧ (march_c_minus_test S s).store a = 0 :=
  ⟨mats_plus_store_zero S h8 s a ha, march_c_minus_store_zero S h8 s a ha⟩

theorem C10_jedec_leaves_zero_witness :
    16 % 8 = 0 ∧ 3 < 16 ∧
    ((mats_plus_test 16 (fun _ => 7)).store 3 = 0 ∧
      (march_c_minus_test 16 (fun _ => 7)).store 3 = 0) :=
  ⟨by decide, by decide, C10_jedec_leaves_zero 16 (fun _ => 7) (by decide) 3 (by decide)⟩

end RamTest
